import Mathlib

/- Verification of the range-propagation engine declared in src/gcc/vr-values.h.
   The surviving fragment of the repository is a declaration-only header; except
   where a body appears inline in the header (simplify_with_ranges::
   simplify_switch_using_ranges and set_lattice_propagation_complete), the
   operation bodies are modelled from the specification (spec.md), as noted in
   each definition's doc comment. -/

/-- Modelled from the spec, section 3 (bodies of the value_range class are not in
the repository fragment): the value-range abstract domain, a tagged variant over
VARYING, UNDEFINED, RANGE[min,max] and ANTI_RANGE[min,max], over an unsigned
integer type whose values are the naturals 0..N. -/
inductive VR where
  | varying : VR
  | undef : VR
  | range (lo hi : Nat) : VR
  | antiRange (lo hi : Nat) : VR
deriving DecidableEq

/-- Concretization test: does the concrete value x (of the type with values
0..N) lie in the set denoted by the range?  VARYING denotes the whole type,
UNDEFINED the empty set, RANGE an inclusive interval, ANTI_RANGE its
complement within the type. -/
def VR.contains (N x : Nat) : VR → Bool
  | .varying => decide (x ≤ N)
  | .undef => false
  | .range lo hi => decide (lo ≤ x ∧ x ≤ hi)
  | .antiRange lo hi => decide (x ≤ N) && !(decide (lo ≤ x ∧ x ≤ hi))

/-- Well-formedness invariant from the spec, section 3: RANGE and ANTI_RANGE
bounds are inclusive, ordered, and drawn from the type's value set 0..N. -/
def VR.wfb (N : Nat) : VR → Bool
  | .varying => true
  | .undef => true
  | .range lo hi => decide (lo ≤ hi ∧ hi ≤ N)
  | .antiRange lo hi => decide (lo ≤ hi ∧ hi ≤ N)

/-- Modelled from the spec, sections 4.1 and 4.3: the binary operator kinds of
statements handled by the extractor (names follow the host IR's tree codes). -/
inductive BinOp where
  | plus_expr : BinOp
  | minus_expr : BinOp
  | mult_expr : BinOp
  | min_expr : BinOp
  | max_expr : BinOp
deriving DecidableEq

/-- Concrete (modular, unsigned) evaluation of a binary operator on the type
with values 0..N, i.e. arithmetic modulo N+1. -/
def evalBinOp (N : Nat) : BinOp → Nat → Nat → Nat
  | .plus_expr, x, y => (x + y) % (N + 1)
  | .minus_expr, x, y => (x + (N + 1) - y) % (N + 1)
  | .mult_expr, x, y => (x * y) % (N + 1)
  | .min_expr, x, y => min x y
  | .max_expr, x, y => max x y

/-- Modelled from the spec, sections 4.1 and 4.3 (the body of
vr_values::extract_range_from_binary_expr is not in the repository fragment):
derive the output range of a binary operation from the operand ranges.
UNDEFINED is absorbing; for modular arithmetic the result narrows only when
overflow is proven impossible from the operand ranges, otherwise it widens to
VARYING; ANTI_RANGE operands are handled conservatively as VARYING. -/
def extract_range_from_binary_expr (N : Nat) (op : BinOp) (r1 r2 : VR) : VR :=
  match r1, r2 with
  | .undef, _ => .undef
  | _, .undef => .undef
  | .range l1 h1, .range l2 h2 =>
    match op with
    | .plus_expr => if h1 + h2 ≤ N then .range (l1 + l2) (h1 + h2) else .varying
    | .minus_expr => if h2 ≤ l1 then .range (l1 - h2) (h1 - l2) else .varying
    | .mult_expr => if h1 * h2 ≤ N then .range (l1 * l2) (h1 * h2) else .varying
    | .min_expr => .range (min l1 l2) (min h1 h2)
    | .max_expr => .range (max l1 l2) (max h1 h2)
  | _, _ => .varying

/-- Modelled from the spec, section 4.3: the statement shapes seen by the
extractor — assignment of a constant, or a binary operation on two SSA
variables (identified by dense indices). -/
inductive GStmt where
  | const_assign (c : Nat) : GStmt
  | binary_assign (op : BinOp) (a b : Nat) : GStmt
deriving DecidableEq

/-- The SSA input operands of a statement. -/
def stmt_inputs : GStmt → List Nat
  | .const_assign _ => []
  | .binary_assign _ a b => [a, b]

/-- Concrete evaluation of a statement under a valuation of the SSA
variables, in the type with values 0..N. -/
def evalStmt (N : Nat) (vals : Nat → Nat) : GStmt → Nat
  | .const_assign c => c % (N + 1)
  | .binary_assign op a b => evalBinOp N op (vals a) (vals b)

/-- Modelled from the spec, section 4.3 (the body of
vr_values::extract_range_from_stmt is not in the repository fragment): infer
the output range of a statement from the ranges the store holds for its
inputs; a constant assignment yields a singleton range. -/
def extract_range_from_stmt (N : Nat) (store : Nat → VR) : GStmt → VR
  | .const_assign c => .range (c % (N + 1)) (c % (N + 1))
  | .binary_assign op a b => extract_range_from_binary_expr N op (store a) (store b)

/-- Tri-state result of the Conditional Evaluator (spec, section 4.4). -/
inductive Tri where
  | tTrue : Tri
  | tFalse : Tri
  | unknown : Tri
deriving DecidableEq

/-- Comparison operator kinds (names follow the host IR's tree codes). -/
inductive CmpOp where
  | eq_expr : CmpOp
  | ne_expr : CmpOp
  | lt_expr : CmpOp
  | le_expr : CmpOp
  | gt_expr : CmpOp
  | ge_expr : CmpOp
deriving DecidableEq

/-- Concrete truth of a comparison on two values. -/
def evalCmp : CmpOp → Nat → Nat → Bool
  | .eq_expr, x, y => decide (x = y)
  | .ne_expr, x, y => !(decide (x = y))
  | .lt_expr, x, y => decide (x < y)
  | .le_expr, x, y => decide (x ≤ y)
  | .gt_expr, x, y => decide (y < x)
  | .ge_expr, x, y => decide (y ≤ x)

/-- Interval hull of a range within the type 0..N: an over-approximating
inclusive interval, or none for UNDEFINED (empty, unreachable). -/
def toItv (N : Nat) : VR → Option (Nat × Nat)
  | .undef => none
  | .varying => some (0, N)
  | .range lo hi => some (lo, hi)
  | .antiRange _ _ => some (0, N)

/-- Modelled from the spec, sections 4.1 and 4.4 (the bodies of
vr_values::vrp_evaluate_conditional and
vrp_evaluate_conditional_warnv_with_ops are not in the repository fragment):
reduce a comparison of two operand ranges to a tri-state result using interval
disjointness and containment tests; overlapping ranges resolve to UNKNOWN. -/
def vrp_evaluate_conditional (N : Nat) (op : CmpOp) (r1 r2 : VR) : Tri :=
  match toItv N r1, toItv N r2 with
  | none, _ => .unknown
  | some _, none => .unknown
  | some (l1, h1), some (l2, h2) =>
    match op with
    | .eq_expr =>
        if l1 = h1 ∧ l2 = h2 ∧ l1 = l2 then .tTrue
        else if h1 < l2 ∨ h2 < l1 then .tFalse
        else .unknown
    | .ne_expr =>
        if h1 < l2 ∨ h2 < l1 then .tTrue
        else if l1 = h1 ∧ l2 = h2 ∧ l1 = l2 then .tFalse
        else .unknown
    | .lt_expr =>
        if h1 < l2 then .tTrue else if h2 ≤ l1 then .tFalse else .unknown
    | .le_expr =>
        if h1 ≤ l2 then .tTrue else if h2 < l1 then .tFalse else .unknown
    | .gt_expr =>
        if h2 < l1 then .tTrue else if h1 ≤ l2 then .tFalse else .unknown
    | .ge_expr =>
        if h2 ≤ l1 then .tTrue else if h1 < l2 then .tFalse else .unknown

/-- Modelled from the spec, section 4.1 (the range lattice's meet is not in
the repository fragment): the most precise range containing all values of both
arguments.  UNDEFINED is the identity; dissimilar ANTI_RANGE combinations
widen conservatively to VARYING. -/
def latticeMeet : VR → VR → VR
  | .undef, r => r
  | r, .undef => r
  | .varying, _ => .varying
  | _, .varying => .varying
  | .range l1 h1, .range l2 h2 => .range (min l1 l2) (max h1 h2)
  | .antiRange l1 h1, .antiRange l2 h2 =>
      if l1 = l2 ∧ h1 = h2 then .antiRange l1 h1 else .varying
  | .range _ _, .antiRange _ _ => .varying
  | .antiRange _ _, .range _ _ => .varying

/-- The lattice order, in the standard meet-semilattice form: a is below b
(a ⊑ b) when meeting a with b leaves a unchanged.  Under this order a carries
no more precision than b (its concretization contains b's), matching the
spec's "monotone, non-increasing precision growth" (section 4.2). -/
def latticeBelow (a b : VR) : Prop := latticeMeet a b = a

/-- Modelled from the spec, section 4.2 (the body of
vr_values::update_value_range is not in the repository fragment): the
iterative-fixpoint update combines the incoming range with the previously
stored one using meet rather than overwriting, and reports whether the stored
value changed. -/
def update_value_range (s : Nat → VR) (v : Nat) (r : VR) : (Nat → VR) × Bool :=
  let newr := latticeMeet (s v) r
  (fun w => if w = v then newr else s w, decide (newr ≠ s v))

/-- Rank of a range inside the lattice: the number of strict lattice steps
below it.  UNDEFINED sits at rank 0, finite ranges rank by width, ANTI_RANGE
and VARYING occupy the two top levels. -/
def rankVR (N : Nat) : VR → Nat
  | .undef => 0
  | .range lo hi => hi - lo + 1
  | .antiRange _ _ => N + 2
  | .varying => N + 3

/-- Modelled from the spec, sections 4.2 and 5: the height of the value-range
lattice for the type with values 0..N (the length of its longest strict
chain, UNDEFINED below the widening finite ranges below the top levels). -/
def latticeHeight (N : Nat) : Nat := N + 3

/-- Sum of lattice ranks over the store: the potential function that each
changed store entry strictly increases. -/
def storePotential (N n : Nat) (s : Fin n → VR) : Nat :=
  ∑ v : Fin n, rankVR N (s v)

/-- Number of store entries that differ between two stores. -/
def countChanged (n : Nat) (s s' : Fin n → VR) : Nat :=
  (Finset.univ.filter (fun v : Fin n => s' v ≠ s v)).card

/-- Modelled from the spec, sections 2, 4.2 and 5 (the enclosing fixpoint
driver is external to the header): one round recomputes a range for every
variable and folds it into the store through the meet-based revisit update;
rounds repeat until no store entry changes, at which point the driver marks
propagation complete (the Bool component, the values_propagated latch set by
set_lattice_propagation_complete).  The Nat component counts the store
updates (changed entries) performed.  Fuel bounds the rounds. -/
def propagateDriver (n : Nat) (g : (Fin n → VR) → Fin n → VR) :
    Nat → (Fin n → VR) → ((Fin n → VR) × Bool × Nat)
  | 0, s => (s, false, 0)
  | fuel + 1, s =>
    let s' := fun v => latticeMeet (s v) (g s v)
    if countChanged n s s' = 0 then (s, true, 0)
    else
      let r := propagateDriver n g fuel s'
      (r.1, r.2.1, countChanged n s s' + r.2.2)

/-- Embedded from src/gcc/vr-values.h, lines 87..183: the vr_values record —
the lazily populated value-range table (a missing entry models a NULL slot
for a variable never yet visited), the values_propagated flag, and the
deferred-edit vectors to_remove_edges and to_update_switch_stmts.  Edge and
statement handles are opaque (modelled as Nat). -/
structure VrValues where
  vr_value : Nat → Option VR
  values_propagated : Bool
  to_remove_edges : List Nat
  to_update_switch_stmts : List (Nat × List Nat)

/-- Modelled from the spec, section 3 (lifecycle): the freshly constructed
store — nothing visited, propagation not complete, edit queues empty. -/
def vr_values_init : VrValues :=
  { vr_value := fun _ => none
    values_propagated := false
    to_remove_edges := []
    to_update_switch_stmts := [] }

/-- Modelled from the spec, section 4.2 (the body of
vr_values::get_value_range is not in the repository fragment): return the
stored range, or VARYING for a variable never yet visited; total, never
fails. -/
def get_value_range (s : VrValues) (v : Nat) : VR :=
  (s.vr_value v).getD VR.varying

/-- Embedded from src/gcc/vr-values.h, line 118: set_lattice_propagation_complete
sets the values_propagated flag. -/
def set_lattice_propagation_complete (s : VrValues) : VrValues :=
  { s with values_propagated := true }

/-- Modelled from the spec, section 4.6 (the code pushing onto
vr_values::to_remove_edges is not in the repository fragment): queue a
control-flow edge for removal; queuing an already queued edge is a no-op. -/
def queue_remove_edge (s : VrValues) (e : Nat) : VrValues :=
  if e ∈ s.to_remove_edges then s
  else { s with to_remove_edges := s.to_remove_edges ++ [e] }

/-- Modelled from the spec, sections 4.6 and 7 (the body of
vr_values::cleanup_edges_and_switches is not in the repository fragment):
flush the deferred edits against the control-flow graph (a list of edge
handles; each queued edge handle is removed once), clearing the queues.
Flushing before propagation is marked complete is a fatal usage error of
abort class, modelled as none. -/
def cleanup_edges_and_switches (s : VrValues) (cfg : List Nat) :
    Option (List Nat × VrValues) :=
  if s.values_propagated then
    some (s.to_remove_edges.foldl (fun g e => g.erase e) cfg,
          { s with to_remove_edges := [], to_update_switch_stmts := [] })
  else none

/-- Modelled from the spec, section 4.1: the tightest range consistent with
both arguments; UNDEFINED is absorbing, VARYING is the identity; ANTI_RANGE
combinations conservatively keep the first argument. -/
def vrIntersect : VR → VR → VR
  | .undef, _ => .undef
  | _, .undef => .undef
  | .varying, r => r
  | r, .varying => r
  | .range l1 h1, .range l2 h2 =>
      if max l1 l2 ≤ min h1 h2 then .range (max l1 l2) (min h1 h2) else .undef
  | a, _ => a

/-- Modelled from the spec, section 4.3 (the bodies of
vr_values::adjust_range_with_scev and range_misc::adjust_range_with_loop are
not in the repository fragment): narrow an already computed range by an
externally supplied scalar-evolution bound, as an additional intersect. -/
def adjust_range_with_scev (cur scev_bound : VR) : VR :=
  vrIntersect cur scev_bound

/-- Modelled from the spec, section 4.5: the statement shapes seen by the
Statement Simplifier — unsigned division by a constant, min, max, and the
rewrite targets right-shift and copy. -/
inductive SStmt where
  | div_stmt (v c : Nat) : SStmt
  | min_stmt (a b : Nat) : SStmt
  | max_stmt (a b : Nat) : SStmt
  | rshift_stmt (v k : Nat) : SStmt
  | copy_stmt (v : Nat) : SStmt
deriving DecidableEq

/-- Floor base-2 logarithm, fuel-based so it evaluates by kernel reduction. -/
def pow2_log (fuel n : Nat) : Nat :=
  match fuel with
  | 0 => 0
  | fuel + 1 => if n ≤ 1 then 0 else pow2_log fuel (n / 2) + 1

/-- The shift amount corresponding to a constant divisor. -/
def shift_amount (c : Nat) : Nat := pow2_log c c

/-- Modelled from the spec, section 4.5 (the bodies of
vr_values::simplify_stmt_using_ranges and simplify_with_ranges::simplify are
not in the repository fragment): the catalog of range-gated rewrites — at
most one rewrite fires per call; division (of the unsigned, hence known
nonnegative, operand) by a constant power of two becomes a right shift;
min/max whose operand ranges are ordered resolve to one argument.  Returns
the (possibly rewritten) statement and whether a rewrite fired. -/
def simplify_stmt_using_ranges (N : Nat) (store : Nat → VR) : SStmt → SStmt × Bool
  | .div_stmt v c =>
      if 2 ≤ c ∧ 2 ^ shift_amount c = c then (.rshift_stmt v (shift_amount c), true)
      else (.div_stmt v c, false)
  | .min_stmt a b =>
      if vrp_evaluate_conditional N .le_expr (store a) (store b) = .tTrue then
        (.copy_stmt a, true)
      else if vrp_evaluate_conditional N .le_expr (store b) (store a) = .tTrue then
        (.copy_stmt b, true)
      else (.min_stmt a b, false)
  | .max_stmt a b =>
      if vrp_evaluate_conditional N .ge_expr (store a) (store b) = .tTrue then
        (.copy_stmt a, true)
      else if vrp_evaluate_conditional N .ge_expr (store b) (store a) = .tTrue then
        (.copy_stmt b, true)
      else (.max_stmt a b, false)
  | .rshift_stmt v k => (.rshift_stmt v k, false)
  | .copy_stmt v => (.copy_stmt v, false)

/-- A multi-way switch statement: the controlling SSA variable and its case
label values (spec, section 4.5). -/
structure SwitchStmt where
  var : Nat
  labels : List Nat
deriving DecidableEq

/-- The dynamic type of a statement simplifier object: the base class
simplify_with_ranges, or the vr_values-backed subclass simplify_with_vranges
(src/gcc/vr-values.h, lines 26..71). -/
inductive SimplifierKind where
  | with_ranges_base : SimplifierKind
  | with_vranges : SimplifierKind
deriving DecidableEq

/-- Virtual dispatch of simplify_switch_using_ranges.  The base-class body is
embedded from src/gcc/vr-values.h, lines 38..41: it is inline in the header
and is exactly return false.  The overriding body declared at line 68 is
modelled from the spec, section 4.5 (it is not in the repository fragment):
it reports a rewrite when the controlling variable's range excludes some case
label. -/
def simplify_switch_using_ranges (N : Nat) (k : SimplifierKind)
    (store : Nat → VR) (sw : SwitchStmt) : Bool :=
  match k with
  | .with_ranges_base => false
  | .with_vranges => sw.labels.any (fun c => !(VR.contains N c (store sw.var)))

theorem VR.contains_le {N x : Nat} {r : VR} (hw : VR.wfb N r = true)
    (hc : VR.contains N x r = true) : x ≤ N := by
  cases r <;> simp_all [VR.contains, VR.wfb] <;> omega

theorem contains_toItv {N x : Nat} {r : VR} (hc : VR.contains N x r = true) :
    ∃ l h, toItv N r = some (l, h) ∧ l ≤ x ∧ x ≤ h := by
  cases r with
  | varying =>
      refine ⟨0, N, rfl, Nat.zero_le x, ?_⟩
      simpa [VR.contains] using hc
  | undef => simp [VR.contains] at hc
  | range lo hi =>
      simp [VR.contains] at hc
      exact ⟨lo, hi, rfl, hc.1, hc.2⟩
  | antiRange lo hi =>
      refine ⟨0, N, rfl, Nat.zero_le x, ?_⟩
      simp [VR.contains] at hc
      exact hc.1

theorem latticeMeet_self (a : VR) : latticeMeet a a = a := by
  cases a <;> simp [latticeMeet]

theorem latticeMeet_absorb (a b : VR) :
    latticeMeet (latticeMeet a b) a = latticeMeet a b := by
  cases a <;> cases b <;>
    simp [latticeMeet] <;>
    first
      | omega
      | (split_ifs with h
         · rcases h with ⟨h1, h2⟩; subst h1; subst h2; simp [latticeMeet]
         · simp [latticeMeet])

/-- Claim C3: the revisit update combines the incoming range with the
previously stored one using meet, so after each update_value_range call every
stored range sits at or below its previous value in the lattice order
(meeting the new stored value with the old one gives back the new one):
precision never increases across successive revisit updates. -/
theorem update_value_range_monotone (s : Nat → VR) (v : Nat) (r : VR) (w : Nat) :
    latticeBelow ((update_value_range s v r).1 w) (s w) := by
  unfold update_value_range latticeBelow
  by_cases h : w = v
  · subst h; simpa using latticeMeet_absorb (s w) r
  · simpa [h] using latticeMeet_self (s w)

/-- Claim C5: queuing the same control-flow edge for removal twice is a no-op
rather than an error, and after queuing the same edge twice and flushing once
(with propagation complete), the edge is removed from the control-flow graph
exactly once. -/
theorem queue_remove_edge_idempotent (s : VrValues) (e : Nat) (cfg : List Nat)
    (hq : s.to_remove_edges = []) (hp : s.values_propagated = true) (he : e ∈ cfg) :
    (∀ t : VrValues, queue_remove_edge (queue_remove_edge t e) e = queue_remove_edge t e) ∧
    ∃ g t, cleanup_edges_and_switches (queue_remove_edge (queue_remove_edge s e) e) cfg
        = some (g, t) ∧ g.count e + 1 = cfg.count e := by
  constructor
  · intro t
    by_cases h : e ∈ t.to_remove_edges
    · simp [queue_remove_edge, h]
    · simp [queue_remove_edge, h]
  · have h1 : queue_remove_edge s e = { s with to_remove_edges := [e] } := by
      simp [queue_remove_edge, hq]
    have h2 : queue_remove_edge (queue_remove_edge s e) e
        = { s with to_remove_edges := [e] } := by
      rw [h1]; simp [queue_remove_edge]
    rw [h2]
    refine ⟨cfg.erase e,
      { s with to_remove_edges := [], to_update_switch_stmts := [] }, ?_, ?_⟩
    · simp [cleanup_edges_and_switches, hp]
    · have hcount : 0 < cfg.count e := List.count_pos_iff.mpr he
      have := List.count_erase_self e cfg
      omega

theorem queue_remove_edge_idempotent_witness :
    (∀ t : VrValues, queue_remove_edge (queue_remove_edge t 1) 1 = queue_remove_edge t 1) ∧
    ∃ g t, cleanup_edges_and_switches
        (queue_remove_edge (queue_remove_edge (set_lattice_propagation_complete vr_values_init) 1) 1)
        [1, 2] = some (g, t) ∧ g.count 1 + 1 = List.count 1 [1, 2] :=
  queue_remove_edge_idempotent (set_lattice_propagation_complete vr_values_init) 1 [1, 2]
    rfl rfl (by decide)

/-- Claim C6: flushing the deferred edit queue is a fatal (abort-class,
modelled as none) usage error exactly when propagation has not been marked
complete: it fails on any state whose values_propagated flag is unset
(including the freshly constructed store) and succeeds on any state on which
set_lattice_propagation_complete has been called. -/
theorem cleanup_requires_propagation_complete (s : VrValues) (cfg : List Nat) :
    (cleanup_edges_and_switches s cfg = none ↔ s.values_propagated = false) ∧
    (cleanup_edges_and_switches (set_lattice_propagation_complete s) cfg).isSome = true ∧
    cleanup_edges_and_switches vr_values_init cfg = none := by
  refine ⟨?_, ?_, ?_⟩
  · cases h : s.values_propagated <;>
      simp [cleanup_edges_and_switches, h]
  · simp [cleanup_edges_and_switches, set_lattice_propagation_complete]
  · simp [cleanup_edges_and_switches, vr_values_init]

theorem cleanup_requires_propagation_complete_witness :
    cleanup_edges_and_switches vr_values_init [] = none :=
  (cleanup_requires_propagation_complete vr_values_init []).2.2

/-- Claim C7: the Range Store's get operation returns VARYING for every
variable never yet visited (one whose table slot is still unpopulated); it is
a total function, so it never fails. -/
theorem get_value_range_unvisited_varying (s : VrValues) (v : Nat)
    (h : s.vr_value v = none) : get_value_range s v = VR.varying := by
  simp [get_value_range, h]

theorem get_value_range_unvisited_varying_witness :
    get_value_range vr_values_init 0 = VR.varying :=
  get_value_range_unvisited_varying vr_values_init 0 rfl

/-- Claim C8: adjusting an already computed range by an externally supplied
scalar-evolution bound only tightens it, never widens it: every concrete
value in the adjusted range already lies in the previously computed range
(the adjustment behaves as an additional intersect). -/
theorem adjust_range_with_scev_tightens (N : Nat) (cur scev : VR)
    (hc : VR.wfb N cur = true) (hs : VR.wfb N scev = true) (x : Nat)
    (hx : VR.contains N x (adjust_range_with_scev cur scev) = true) :
    VR.contains N x cur = true := by
  have hvar : ∀ r : VR, VR.wfb N r = true → VR.contains N x r = true →
      VR.contains N x VR.varying = true := by
    intro r hw hcr
    simp only [VR.contains, decide_eq_true_eq]
    exact VR.contains_le hw hcr
  cases cur with
  | undef => cases scev <;> simp [adjust_range_with_scev, vrIntersect, VR.contains] at hx
  | varying =>
      cases scev with
      | undef => simp [adjust_range_with_scev, vrIntersect, VR.contains] at hx
      | varying => exact hx
      | range lo hi => exact hvar _ hs hx
      | antiRange lo hi => exact hvar _ hs hx
  | range l1 h1 =>
      cases scev with
      | undef => simp [adjust_range_with_scev, vrIntersect, VR.contains] at hx
      | varying => exact hx
      | range l2 h2 =>
          simp only [adjust_range_with_scev, vrIntersect] at hx
          split_ifs at hx with h
          · simp only [VR.contains, decide_eq_true_eq] at hx ⊢
            omega
          · simp [VR.contains] at hx
      | antiRange l2 h2 => exact hx
  | antiRange l1 h1 =>
      cases scev with
      | undef => simp [adjust_range_with_scev, vrIntersect, VR.contains] at hx
      | varying => exact hx
      | range l2 h2 => exact hx
      | antiRange l2 h2 => exact hx

/-- Claim C9: statement simplification is idempotent — running the Statement
Simplifier on the output of a previous simplification of the same statement,
against the same range snapshot, fires no further rewrite (the second call
reports no change). -/
theorem simplify_stmt_idempotent (N : Nat) (store : Nat → VR) (st : SStmt) :
    (simplify_stmt_using_ranges N store
        (simplify_stmt_using_ranges N store st).1).2 = false := by
  cases st with
  | div_stmt v c =>
      by_cases h : 2 ≤ c ∧ 2 ^ shift_amount c = c
      · simp [simplify_stmt_using_ranges, h]
      · simp [simplify_stmt_using_ranges, h]
  | min_stmt a b =>
      by_cases h1 : vrp_evaluate_conditional N .le_expr (store a) (store b) = .tTrue
      · simp [simplify_stmt_using_ranges, h1]
      · by_cases h2 : vrp_evaluate_conditional N .le_expr (store b) (store a) = .tTrue
        · simp [simplify_stmt_using_ranges, h1, h2]
        · simp [simplify_stmt_using_ranges, h1, h2]
  | max_stmt a b =>
      by_cases h1 : vrp_evaluate_conditional N .ge_expr (store a) (store b) = .tTrue
      · simp [simplify_stmt_using_ranges, h1]
      · by_cases h2 : vrp_evaluate_conditional N .ge_expr (store b) (store a) = .tTrue
        · simp [simplify_stmt_using_ranges, h1, h2]
        · simp [simplify_stmt_using_ranges, h1, h2]
  | rshift_stmt v k => rfl
  | copy_stmt v => rfl

/-- Claim C10: in the base simplifier interface (simplify_with_ranges) switch
simplification always returns false — no switch is ever rewritten, for every
range state and statement — and a true result can only come from the
vr_values-backed subclass (simplify_with_vranges), which overrides the
virtual method. -/
theorem base_simplify_switch_returns_false (N : Nat) :
    (∀ (store : Nat → VR) (sw : SwitchStmt),
        simplify_switch_using_ranges N .with_ranges_base store sw = false) ∧
    (∀ (k : SimplifierKind) (store : Nat → VR) (sw : SwitchStmt),
        simplify_switch_using_ranges N k store sw = true → k = .with_vranges) := by
  constructor
  · intro store sw; rfl
  · intro k store sw h
    cases k with
    | with_ranges_base => exact absurd h (by simp [simplify_switch_using_ranges])
    | with_vranges => rfl

theorem base_simplify_switch_returns_false_witness :
    simplify_switch_using_ranges 9 .with_ranges_base (fun _ => VR.varying) ⟨0, [5]⟩ = false ∧
    SimplifierKind.with_vranges = SimplifierKind.with_vranges :=
  ⟨(base_simplify_switch_returns_false 9).1 (fun _ => VR.varying) ⟨0, [5]⟩,
   (base_simplify_switch_returns_false 9).2 .with_vranges (fun _ => VR.range 0 0) ⟨0, [5]⟩
     (by decide)⟩

set_option maxHeartbeats 1000000 in
/-- Claim C2: the Conditional Evaluator is sound and never guesses — it
returns TRUE only if every pair of concrete values drawn from the two operand
ranges satisfies the comparison, FALSE only if no such pair does, and in
every other (mixed) situation it returns UNKNOWN. -/
theorem vrp_evaluate_conditional_correct (N : Nat) (op : CmpOp) (r1 r2 : VR) :
    (vrp_evaluate_conditional N op r1 r2 = Tri.tTrue →
      ∀ x y, VR.contains N x r1 = true → VR.contains N y r2 = true →
        evalCmp op x y = true) ∧
    (vrp_evaluate_conditional N op r1 r2 = Tri.tFalse →
      ∀ x y, VR.contains N x r1 = true → VR.contains N y r2 = true →
        evalCmp op x y = false) ∧
    (∀ x y u v, VR.contains N x r1 = true → VR.contains N y r2 = true →
      VR.contains N u r1 = true → VR.contains N v r2 = true →
      evalCmp op x y = true → evalCmp op u v = false →
      vrp_evaluate_conditional N op r1 r2 = Tri.unknown) := by
  have hT : vrp_evaluate_conditional N op r1 r2 = Tri.tTrue →
      ∀ x y, VR.contains N x r1 = true → VR.contains N y r2 = true →
        evalCmp op x y = true := by
    intro hres x y hx hy
    obtain ⟨l1, h1, e1, hx1, hx2⟩ := contains_toItv hx
    obtain ⟨l2, h2, e2, hy1, hy2⟩ := contains_toItv hy
    simp only [vrp_evaluate_conditional, e1, e2] at hres
    cases op <;>
      split_ifs at hres <;>
      first
        | exact absurd hres (by decide)
        | (simp only [evalCmp, decide_eq_true_eq, Bool.not_eq_true',
             decide_eq_false_iff_not]
           omega)
  have hF : vrp_evaluate_conditional N op r1 r2 = Tri.tFalse →
      ∀ x y, VR.contains N x r1 = true → VR.contains N y r2 = true →
        evalCmp op x y = false := by
    intro hres x y hx hy
    obtain ⟨l1, h1, e1, hx1, hx2⟩ := contains_toItv hx
    obtain ⟨l2, h2, e2, hy1, hy2⟩ := contains_toItv hy
    simp only [vrp_evaluate_conditional, e1, e2] at hres
    cases op <;>
      split_ifs at hres <;>
      first
        | exact absurd hres (by decide)
        | (simp only [evalCmp, decide_eq_false_iff_not, Bool.not_eq_false',
             decide_eq_true_eq]
           omega)
  refine ⟨hT, hF, ?_⟩
  intro x y u v hx hy hu hv hsat hunsat
  cases hres : vrp_evaluate_conditional N op r1 r2 with
  | tTrue =>
      have := hT hres u v hu hv
      simp_all
  | tFalse =>
      have := hF hres x y hx hy
      simp_all
  | unknown => rfl

theorem vrp_evaluate_conditional_correct_witness :
    evalCmp CmpOp.lt_expr 1 5 = true :=
  (vrp_evaluate_conditional_correct 10 CmpOp.lt_expr (VR.range 0 3) (VR.range 5 8)).1
    (by decide) 1 5 (by decide) (by decide)

theorem evalBinOp_le {N x y : Nat} (op : BinOp) (hx : x ≤ N) (hy : y ≤ N) :
    evalBinOp N op x y ≤ N := by
  cases op <;> simp only [evalBinOp] <;>
    first
      | exact Nat.lt_succ_iff.mp (Nat.mod_lt _ (Nat.succ_pos N))
      | omega

theorem extract_range_from_binary_expr_sound (N : Nat) (op : BinOp) (r1 r2 : VR)
    (x y : Nat) (hw1 : VR.wfb N r1 = true) (hw2 : VR.wfb N r2 = true)
    (hx : VR.contains N x r1 = true) (hy : VR.contains N y r2 = true) :
    VR.contains N (evalBinOp N op x y)
      (extract_range_from_binary_expr N op r1 r2) = true := by
  have hxN : x ≤ N := VR.contains_le hw1 hx
  have hyN : y ≤ N := VR.contains_le hw2 hy
  have hvar : VR.contains N (evalBinOp N op x y) VR.varying = true := by
    simp only [VR.contains, decide_eq_true_eq]
    exact evalBinOp_le op hxN hyN
  cases r1 with
  | undef => simp [VR.contains] at hx
  | varying =>
      cases r2 with
      | undef => simp [VR.contains] at hy
      | varying => exact hvar
      | range l2 h2 => exact hvar
      | antiRange l2 h2 => exact hvar
  | antiRange l1 h1 =>
      cases r2 with
      | undef => simp [VR.contains] at hy
      | varying => exact hvar
      | range l2 h2 => exact hvar
      | antiRange l2 h2 => exact hvar
  | range l1 h1 =>
      cases r2 with
      | undef => simp [VR.contains] at hy
      | varying => exact hvar
      | antiRange l2 h2 => exact hvar
      | range l2 h2 =>
          simp only [VR.contains, decide_eq_true_eq] at hx hy
          simp only [VR.wfb, decide_eq_true_eq] at hw1 hw2
          cases op with
          | plus_expr =>
              simp only [extract_range_from_binary_expr, evalBinOp]
              split_ifs with h
              · simp only [VR.contains, decide_eq_true_eq]
                rw [Nat.mod_eq_of_lt (by omega : x + y < N + 1)]
                omega
              · simp only [VR.contains, decide_eq_true_eq]
                exact Nat.lt_succ_iff.mp (Nat.mod_lt _ (Nat.succ_pos N))
          | minus_expr =>
              simp only [extract_range_from_binary_expr, evalBinOp]
              split_ifs with h
              · simp only [VR.contains, decide_eq_true_eq]
                have hstep : x + (N + 1) - y = (x - y) + (N + 1) := by omega
                rw [hstep, Nat.add_mod_right, Nat.mod_eq_of_lt (by omega : x - y < N + 1)]
                omega
              · simp only [VR.contains, decide_eq_true_eq]
                exact Nat.lt_succ_iff.mp (Nat.mod_lt _ (Nat.succ_pos N))
          | mult_expr =>
              simp only [extract_range_from_binary_expr, evalBinOp]
              split_ifs with h
              · simp only [VR.contains, decide_eq_true_eq]
                have hup : x * y ≤ h1 * h2 := Nat.mul_le_mul hx.2 hy.2
                have hlo : l1 * l2 ≤ x * y := Nat.mul_le_mul hx.1 hy.1
                rw [Nat.mod_eq_of_lt (by omega : x * y < N + 1)]
                omega
              · simp only [VR.contains, decide_eq_true_eq]
                exact Nat.lt_succ_iff.mp (Nat.mod_lt _ (Nat.succ_pos N))
          | min_expr =>
              simp only [extract_range_from_binary_expr, evalBinOp, VR.contains,
                decide_eq_true_eq]
              omega
          | max_expr =>
              simp only [extract_range_from_binary_expr, evalBinOp, VR.contains,
                decide_eq_true_eq]
              omega

/-- Claim C1: soundness of statement range extraction — for every statement
and every valuation in which each statement input lies inside the range the
store holds for it, the concrete (modular, overflow-aware) evaluation of the
statement's operator yields a value inside the range the extractor computes
for the statement's output. -/
theorem extract_range_from_stmt_sound (N : Nat) (store : Nat → VR)
    (vals : Nat → Nat) (stmt : GStmt)
    (hw : ∀ v ∈ stmt_inputs stmt, VR.wfb N (store v) = true)
    (hin : ∀ v ∈ stmt_inputs stmt, VR.contains N (vals v) (store v) = true) :
    VR.contains N (evalStmt N vals stmt) (extract_range_from_stmt N store stmt) = true := by
  cases stmt with
  | const_assign c => simp [evalStmt, extract_range_from_stmt, VR.contains]
  | binary_assign op a b =>
      exact extract_range_from_binary_expr_sound N op (store a) (store b)
        (vals a) (vals b)
        (hw a (by simp [stmt_inputs])) (hw b (by simp [stmt_inputs]))
        (hin a (by simp [stmt_inputs])) (hin b (by simp [stmt_inputs]))

theorem extract_range_from_stmt_sound_witness :
    VR.contains 10 (evalStmt 10 (fun _ => 2) (GStmt.binary_assign BinOp.plus_expr 0 1))
      (extract_range_from_stmt 10 (fun _ => VR.range 1 2)
        (GStmt.binary_assign BinOp.plus_expr 0 1)) = true :=
  extract_range_from_stmt_sound 10 (fun _ => VR.range 1 2) (fun _ => 2)
    (GStmt.binary_assign BinOp.plus_expr 0 1)
    (fun _ _ => rfl) (fun _ _ => rfl)

theorem rankVR_le_height {N : Nat} {r : VR} (hw : VR.wfb N r = true) :
    rankVR N r ≤ N + 3 := by
  cases r <;> simp_all [rankVR, VR.wfb] <;> omega

theorem wfb_latticeMeet {N : Nat} {a b : VR} (ha : VR.wfb N a = true)
    (hb : VR.wfb N b = true) : VR.wfb N (latticeMeet a b) = true := by
  cases a <;> cases b <;>
    simp only [latticeMeet] <;>
    (try split_ifs) <;>
    simp_all [VR.wfb]

theorem rankVR_le_meet {N : Nat} {a : VR} (b : VR) (ha : VR.wfb N a = true) :
    rankVR N a ≤ rankVR N (latticeMeet a b) := by
  cases a <;> cases b <;>
    simp only [latticeMeet] <;>
    (try split_ifs) <;>
    simp_all [rankVR, VR.wfb] <;>
    omega

theorem rankVR_lt_meet {N : Nat} {a b : VR} (ha : VR.wfb N a = true)
    (hne : latticeMeet a b ≠ a) : rankVR N a < rankVR N (latticeMeet a b) := by
  cases a <;> cases b <;>
    simp only [latticeMeet] at hne ⊢ <;>
    (try split_ifs) <;>
    (try split_ifs at hne) <;>
    simp_all [rankVR, VR.wfb] <;>
    omega

theorem storePotential_le {N n : Nat} {s : Fin n → VR}
    (hw : ∀ v, VR.wfb N (s v) = true) : storePotential N n s ≤ (N + 3) * n := by
  calc storePotential N n s ≤ ∑ _v : Fin n, (N + 3) :=
        Finset.sum_le_sum fun v _ => rankVR_le_height (hw v)
    _ = (N + 3) * n := by
        simp [Finset.sum_const, Finset.card_univ, Nat.mul_comm]

theorem countChanged_le {N n : Nat} {s s' : Fin n → VR}
    (hlt : ∀ v, s' v ≠ s v → rankVR N (s v) < rankVR N (s' v)) :
    storePotential N n s + countChanged n s s' ≤ storePotential N n s' := by
  have hcard : countChanged n s s'
      = ∑ v : Fin n, (if s' v ≠ s v then 1 else 0) := by
    rw [countChanged, Finset.card_eq_sum_ones, Finset.sum_filter]
  rw [storePotential, storePotential, hcard, ← Finset.sum_add_distrib]
  refine Finset.sum_le_sum fun v _ => ?_
  by_cases h : s' v = s v
  · simp [h]
  · rw [if_pos h]
    have := hlt v h
    omega

theorem propagateDriver_aux (N n : Nat) (g : (Fin n → VR) → Fin n → VR)
    (hg : ∀ s v, VR.wfb N (g s v) = true) :
    ∀ (fuel : Nat) (s : Fin n → VR), (∀ v, VR.wfb N (s v) = true) →
      (N + 3) * n + 1 ≤ storePotential N n s + fuel →
      (propagateDriver n g fuel s).2.1 = true ∧
      (propagateDriver n g fuel s).2.2 + storePotential N n s ≤ (N + 3) * n := by
  intro fuel
  induction fuel with
  | zero =>
      intro s hw hfuel
      exact absurd hfuel (by have := storePotential_le hw; omega)
  | succ fuel ih =>
      intro s hw hfuel
      by_cases hc : countChanged n s (fun v => latticeMeet (s v) (g s v)) = 0
      · have hphi := storePotential_le hw
        constructor
        · simp [propagateDriver, hc]
        · simp only [propagateDriver, hc, if_pos]
          omega
      · have hw' : ∀ v, VR.wfb N (latticeMeet (s v) (g s v)) = true :=
          fun v => wfb_latticeMeet (hw v) (hg s v)
        have hle : ∀ v, rankVR N (s v) ≤ rankVR N (latticeMeet (s v) (g s v)) :=
          fun v => rankVR_le_meet _ (hw v)
        have hlt : ∀ v, latticeMeet (s v) (g s v) ≠ s v →
            rankVR N (s v) < rankVR N (latticeMeet (s v) (g s v)) :=
          fun v h => rankVR_lt_meet (hw v) h
        have hcle := @countChanged_le N n s (fun v => latticeMeet (s v) (g s v)) hlt
        have hc1 : 1 ≤ countChanged n s (fun v => latticeMeet (s v) (g s v)) :=
          Nat.one_le_iff_ne_zero.mpr hc
        have hih := ih (fun v => latticeMeet (s v) (g s v)) hw' (by omega)
        constructor
        · simpa [propagateDriver, hc] using hih.1
        · have h2 : (propagateDriver n g (fuel + 1) s).2.2
              = countChanged n s (fun v => latticeMeet (s v) (g s v))
                + (propagateDriver n g fuel (fun v => latticeMeet (s v) (g s v))).2.2 := by
            simp [propagateDriver, hc]
          rw [h2]
          have := hih.2
          omega

/-- Claim C4: the fixpoint propagation terminates — iterating meet-based
revisit rounds until no store entry changes reaches the fixpoint (and with it
the propagation-complete flag of set_lattice_propagation_complete) within
fuel height(lattice) × |variables| + 1, and performs at most
height(lattice) × |variables| store updates in total. -/
theorem vrp_propagation_terminates (N n : Nat) (g : (Fin n → VR) → Fin n → VR)
    (s0 : Fin n → VR) (hs : ∀ v, VR.wfb N (s0 v) = true)
    (hg : ∀ s v, VR.wfb N (g s v) = true) :
    (propagateDriver n g (latticeHeight N * n + 1) s0).2.1 = true ∧
    (propagateDriver n g (latticeHeight N * n + 1) s0).2.2 ≤ latticeHeight N * n := by
  have h := propagateDriver_aux N n g hg (latticeHeight N * n + 1) s0 hs
    (by unfold latticeHeight; omega)
  refine ⟨h.1, ?_⟩
  have := h.2
  unfold latticeHeight at *
  omega

theorem vrp_propagation_terminates_witness :
    (propagateDriver 1 (fun _ _ => VR.range 0 0) (latticeHeight 1 * 1 + 1)
        (fun _ => VR.undef)).2.1 = true ∧
    (propagateDriver 1 (fun _ _ => VR.range 0 0) (latticeHeight 1 * 1 + 1)
        (fun _ => VR.undef)).2.2 ≤ latticeHeight 1 * 1 :=
  vrp_propagation_terminates 1 1 (fun _ _ => VR.range 0 0) (fun _ => VR.undef)
    (fun _ => rfl) (fun _ _ => rfl)

theorem adjust_range_with_scev_tightens_witness :
    VR.contains 9 5 (VR.range 0 9) = true :=
  adjust_range_with_scev_tightens 9 (VR.range 0 9) (VR.range 3 9)
    (by decide) (by decide) 5 (by decide)
